import Mathlib

/-
Verification development for the Notemd markdown annotation pipeline.

The TypeScript sources are shallowly embedded: strings are modelled as
Lean String or List Char, JavaScript regular expression passes are
implemented as explicit character scans with the same matching semantics,
asynchronous failure is modelled with Option and Except, and the
filesystem state touched by the backlink writer and the duplicate file
cleaner is modelled as explicit values threaded through the functions.
-/

/-! ## Character helpers (JavaScript character classes, ASCII fragment) -/

/-- Whitespace test modelling the regex class backslash-s on ASCII input. -/
def jsIsSpace (c : Char) : Bool :=
  (c == ' ') || (c == '\t') || (c == '\n') || (c == '\r') || (c == '\x0b') || (c == '\x0c')

/-- The regex class A-Z. -/
def isAsciiUpper (c : Char) : Bool :=
  ('A' ≤ c) && (c ≤ 'Z')

/-- The regex class a-z. -/
def isAsciiLower (c : Char) : Bool :=
  ('a' ≤ c) && (c ≤ 'z')

/-- The regex class 0-9. -/
def isAsciiDigit (c : Char) : Bool :=
  ('0' ≤ c) && (c ≤ '9')

/-- One character of String.prototype.toLowerCase, restricted to ASCII. -/
def jsToLowerChar (c : Char) : Char :=
  if isAsciiUpper c then Char.ofNat (c.toNat + 32) else c

/-- String.prototype.toLowerCase on the ASCII fragment. -/
def jsToLower (s : String) : String :=
  String.mk (s.data.map jsToLowerChar)

/-- Counts maximal runs of characters satisfying p; the flag records whether
the previous character satisfied p. -/
def countRunsAux (p : Char → Bool) : Bool → List Char → Nat
  | _, [] => 0
  | prev, c :: cs =>
    if p c then (if prev then 0 else 1) + countRunsAux p true cs
    else countRunsAux p false cs

/-- Number of maximal runs of characters satisfying p. -/
def countRuns (p : Char → Bool) (l : List Char) : Nat :=
  countRunsAux p false l

/-- Number of whitespace-delimited tokens of a string. -/
def countTokens (l : List Char) : Nat :=
  countRuns (fun c => !jsIsSpace c) l

/-- Length of the array returned by JavaScript split on the regex
backslash-s-plus: one more than the number of whitespace runs (leading and
trailing runs produce empty array entries, which the source code counts). -/
def jsSplitWsLen (l : List Char) : Nat :=
  1 + countRuns jsIsSpace l

/-! ## Provider dispatch (src/llm/providers.ts, getProvider) -/

/-- The seven concrete provider classes of providers.ts, abstracted to tags
since only dispatch is verified here. -/
inductive LLMProvider where
  | deepseek
  | openai
  | azure
  | google
  | anthropic
  | mistral
  | ollama
deriving DecidableEq

/-- The seven identifiers accepted by the switch in getProvider. -/
def providerIds : List String :=
  [ "deepseek", "openai", "azure", "google", "anthropic", "mistral", "ollama" ]

/-- Embedding of getProvider: switch on name.toLowerCase() over the seven
provider cases, default branch throws Unknown provider with the original
(uncased) name interpolated. -/
def getProvider (name : String) : Except String LLMProvider :=
  let n := jsToLower name
  if n = "deepseek" then Except.ok LLMProvider.deepseek
  else if n = "openai" then Except.ok LLMProvider.openai
  else if n = "azure" then Except.ok LLMProvider.azure
  else if n = "google" then Except.ok LLMProvider.google
  else if n = "anthropic" then Except.ok LLMProvider.anthropic
  else if n = "mistral" then Except.ok LLMProvider.mistral
  else if n = "ollama" then Except.ok LLMProvider.ollama
  else Except.error (String.append "Unknown provider: " name)

/-! ## Keyword normalization (markdown.ts, normalizeKeyword) -/

/-- Embedding of normalizeKeyword, preserving the source branch order: the
endsWith es test runs before the endsWith ies test, so the ies branch is
unreachable (every string ending in ies also ends in es). -/
def normalizeKeyword (k : List Char) : List Char :=
  if List.isSuffixOf [ 's' ] k ∧ 1 < k.length then
    if List.isSuffixOf [ 'e', 's' ] k then k.take (k.length - 2)
    else if List.isSuffixOf [ 'i', 'e', 's' ] k then k.take (k.length - 3) ++ [ 'y' ]
    else k.take (k.length - 1)
  else k

/-- String wrapper for normalizeKeyword. -/
def normalizeKeywordS (k : String) : String :=
  String.mk (normalizeKeyword k.data)

/-! ## Double-bracket span scanning (the three regex replace passes of
applyRules in markdown.ts)

Every one of the three passes scans for spans of shape open-open content
close-close where the content holds no bracket character.  The scan below
reproduces the global regex replace semantics: leftmost match, the content
is the maximal bracket-free run after the two opening brackets, a failed
match attempt advances one character.  Fuel equal to the input length
bounds the recursion; every step consumes at least one character, so the
fuel never runs out on the initial call. -/

/-- Characters allowed inside a span content. -/
def isNonBracketChar (c : Char) : Bool :=
  !((c == '[') || (c == ']'))

/-- One replace pass over double-bracket spans.  The callback f receives the
running state and the span content and returns the replacement text and the
new state; text outside matches is copied unchanged. -/
def scanSpansF {σ : Type} (f : σ → List Char → List Char × σ) :
    Nat → σ → List Char → List Char
  | 0, _, l => l
  | _ + 1, _, [] => []
  | fuel + 1, st, c :: cs =>
    if c = '[' then
      match cs with
      | [] => [ c ]
      | d :: ds =>
        if d = '[' then
          match ds.takeWhile isNonBracketChar, ds.dropWhile isNonBracketChar with
          | a :: as, e1 :: e2 :: rest2 =>
            if e1 = ']' ∧ e2 = ']' then
              let r := f st (a :: as)
              r.1 ++ scanSpansF f fuel r.2 rest2
            else c :: scanSpansF f fuel st cs
          | _, _ => c :: scanSpansF f fuel st cs
        else c :: scanSpansF f fuel st cs
    else c :: scanSpansF f fuel st cs

/-- Runs a span replace pass with sufficient fuel. -/
def scanSpans {σ : Type} (f : σ → List Char → List Char × σ) (st : σ) (l : List Char) :
    List Char :=
  scanSpansF f l.length st l

/-- Renders a span back to its bracketed surface form. -/
def spanText (content : List Char) : List Char :=
  '[' :: '[' :: (content ++ [ ']', ']' ])

/-- Splits a character list on a separator character; used for the
single-space word splitting of the rule 2 regex and for line splitting. -/
def splitOnChar (sep : Char) : List Char → List (List Char)
  | [] => [ [] ]
  | c :: cs =>
    if c = sep then [] :: splitOnChar sep cs
    else
      match splitOnChar sep cs with
      | l :: ls => (c :: l) :: ls
      | [] => [ [ c ] ]

/-- One word of the rule 2 name pattern: an uppercase letter followed by one
or more lowercase letters. -/
def capWordB (w : List Char) : Bool :=
  match w with
  | [] => false
  | c :: rest => isAsciiUpper c && !rest.isEmpty && rest.all isAsciiLower

/-- The numeral alternative of the rule 2 pattern: four digits, optionally
followed by the letter s. -/
def isYearLike (c : List Char) : Bool :=
  (c.length == 4 && c.all isAsciiDigit) ||
  (c.length == 5 && (c.take 4).all isAsciiDigit && c.getLast? == some 's')

/-- Whether a span content matches the full rule 2 alternation: capitalized
words joined by single spaces, or a year-like numeral. -/
def rule2Content (c : List Char) : Bool :=
  (let ws := splitOnChar ' ' c
   !ws.isEmpty && ws.all capWordB) || isYearLike c

/-- Rule 2 of applyRules: spans wrapping conventional names or year numerals
are removed entirely (replaced by the empty string). -/
def skipConventionalNames (text : List Char) : List Char :=
  scanSpans (fun _ content => (if rule2Content content then [] else spanText content, ())) () text

/-- Replacement step of rule 4: the first span of a normalized form is kept
as markup and the form is recorded; later spans of a recorded form are
replaced by their raw content. -/
def dedupStep (seen : List (List Char)) (content : List Char) :
    List Char × List (List Char) :=
  let n := normalizeKeyword content
  if n ∈ seen then (content, seen) else (spanText content, n :: seen)

/-- Rule 4 of applyRules: duplicate concept suppression. -/
def removeDuplicateConcepts (text : List Char) : List Char :=
  scanSpans dedupStep [] text

/-- String wrapper for rule 4. -/
def removeDuplicateConceptsS (s : String) : String :=
  String.mk (removeDuplicateConcepts s.data)

/-- Boolean list-head matching, used for the literal prefixes of rule 5. -/
def leadsWith : List Char → List Char → Bool
  | [], _ => true
  | _ :: _, [] => false
  | a :: as, b :: bs => (a == b) && leadsWith as bs

/-- Whether a span content matches the rule 5 alternation: an at sign or an
http or https scheme, followed by at least one further character. -/
def rule5Content (c : List Char) : Bool :=
  match c with
  | '@' :: rest => !rest.isEmpty
  | _ =>
    (leadsWith ("http://".data) c && 7 < c.length) ||
    (leadsWith ("https://".data) c && 8 < c.length)

/-- Rule 5 of applyRules: spans wrapping citation-like content are removed
entirely. -/
def ignoreReferences (text : List Char) : List Char :=
  scanSpans (fun _ content => (if rule5Content content then [] else spanText content, ())) () text

/-- PROCESSING_RULES.SKIP_CONVENTIONAL_NAMES from prompts.ts. -/
def SKIP_CONVENTIONAL_NAMES : Bool := true

/-- PROCESSING_RULES.REMOVE_DUPLICATES from prompts.ts. -/
def REMOVE_DUPLICATES : Bool := true

/-- PROCESSING_RULES.IGNORE_REFERENCES from prompts.ts. -/
def IGNORE_REFERENCES : Bool := true

/-- Embedding of applyRules: rule 2 (name and numeral filtering), then
rule 4 (duplicate suppression), then rule 5 (reference filtering), in the
order of the source. -/
def applyRules (content : List Char) : List Char :=
  let p1 := if SKIP_CONVENTIONAL_NAMES then skipConventionalNames content else content
  let p2 := if REMOVE_DUPLICATES then removeDuplicateConcepts p1 else p1
  let p3 := if IGNORE_REFERENCES then ignoreReferences p2 else p2
  p3

/-- String wrapper for applyRules. -/
def applyRulesS (s : String) : String :=
  String.mk (applyRules s.data)

/-- Modelled from the spec wording of section 4.4 for comparison with the
code: both filtering rules (names and references) run first and duplicate
suppression runs last. -/
def applyRulesFiltersFirst (content : List Char) : List Char :=
  removeDuplicateConcepts (ignoreReferences (skipConventionalNames content))

/-- String wrapper for the spec-ordered rule composition. -/
def applyRulesFiltersFirstS (s : String) : String :=
  String.mk (applyRulesFiltersFirst s.data)

/-! ## Paragraph splitting (fileSplitter.ts, splitMarkdown)

The source splits the document with the capturing regex newline
whitespace-star newline-plus, then walks the even indices (paragraph
texts), pairing each with the following captured separator (empty for the
last paragraph).  A separator match starts at a newline whose maximal
whitespace run holds a second newline and extends greedily to the last
newline of that run.  The state machine below produces exactly the
(paragraph, separator) pairs the source loop reads. -/

/-- Number of newline characters in a list. -/
def newlineCount (l : List Char) : Nat :=
  l.countP (fun c => c == '\n')

/-- Scanning state machine for the paragraph split.  paraRev holds the
current paragraph in reverse; wsRev, when present, holds a whitespace run
(in reverse) that started with a newline and is still growing. -/
def splitParasGo : List Char → Option (List Char) → List Char → List (List Char × List Char)
  | paraRev, none, [] => [ (paraRev.reverse, []) ]
  | paraRev, some wsRev, [] =>
    if 2 ≤ newlineCount wsRev then
      let tailWs := wsRev.takeWhile (fun c => !(c == '\n'))
      let sepRev := wsRev.drop tailWs.length
      [ (paraRev.reverse, sepRev.reverse), (tailWs.reverse, []) ]
    else [ ((wsRev ++ paraRev).reverse, []) ]
  | paraRev, none, c :: cs =>
    if c = '\n' then splitParasGo paraRev (some [ c ]) cs
    else splitParasGo (c :: paraRev) none cs
  | paraRev, some wsRev, c :: cs =>
    if jsIsSpace c then splitParasGo paraRev (some (c :: wsRev)) cs
    else
      if 2 ≤ newlineCount wsRev then
        let tailWs := wsRev.takeWhile (fun c => !(c == '\n'))
        let sepRev := wsRev.drop tailWs.length
        (paraRev.reverse, sepRev.reverse) :: splitParasGo (c :: tailWs) none cs
      else splitParasGo (c :: (wsRev ++ paraRev)) none cs

/-- The (paragraph, separator) pairs read by the splitMarkdown loop. -/
def splitParas (content : List Char) : List (List Char × List Char) :=
  splitParasGo [] none content

/-- Chunk accumulation loop of splitMarkdown, producing each chunk as the
list of (paragraph, separator) pairs it holds.  Whitespace-only paragraphs
are dropped; the current chunk is closed when adding the next paragraph
would push the running word count over the bound and the count is already
positive. -/
def buildChunksGo (chunkSize : Nat) :
    List (List Char × List Char) → Nat → List (List Char × List Char) →
    List (List (List Char × List Char))
  | cur, _, [] => if cur.isEmpty then [] else [ cur.reverse ]
  | cur, cnt, (p, s) :: rest =>
    if p.all jsIsSpace then buildChunksGo chunkSize cur cnt rest
    else
      let wc := jsSplitWsLen p
      if chunkSize < cnt + wc ∧ 0 < cnt then
        cur.reverse :: buildChunksGo chunkSize [ (p, s) ] wc rest
      else buildChunksGo chunkSize ((p, s) :: cur) (cnt + wc) rest

/-- The chunks of a document, each as its list of paragraph pairs. -/
def chunkGroups (content : List Char) (chunkSize : Nat) :
    List (List (List Char × List Char)) :=
  buildChunksGo chunkSize [] 0 (splitParas content)

/-- Joins the pieces of one chunk back into text, paragraph plus its
trailing separator, exactly as the source pushes para + (sep or empty). -/
def renderChunk (g : List (List Char × List Char)) : List Char :=
  (g.map (fun pr => pr.1 ++ pr.2)).flatten

/-- Embedding of splitMarkdown from fileSplitter.ts. -/
def splitMarkdown (content : List Char) (chunkSize : Nat) : List (List Char) :=
  (chunkGroups content chunkSize).map renderChunk

/-- String wrapper for splitMarkdown. -/
def splitMarkdownS (content : String) (chunkSize : Nat) : List String :=
  (splitMarkdown content.data chunkSize).map String.mk

/-! ## Chunk orchestration (markdown.ts, processMarkdown steps 1 to 3) -/

/-- Step 1 of processMarkdown: chunk only when the content length exceeds
twice the chunk size, otherwise process the whole content as one chunk. -/
def chunksForContent (content : String) (chunkSize : Nat) : List String :=
  if chunkSize * 2 < content.length then splitMarkdownS content chunkSize
  else [ content ]

/-- Step 2 of processMarkdown: each chunk is sent to the backend in order;
a failing call (modelled as none, covering thrown errors and timeouts)
falls back to the original chunk text.  The backend receives the position
of the chunk so that per-call failure can be expressed. -/
def processChunks (backend : Nat → String → Option String) (chunks : List String) :
    List String :=
  chunks.enum.map (fun ic => (backend ic.1 ic.2).getD ic.2)

/-- Step 3 of processMarkdown: join the per-chunk results with one blank
line between consecutive results. -/
def mergeChunks (results : List String) : String :=
  String.intercalate "\n\n" results

/-- Steps 2 and 3 of processMarkdown together: the merged text before the
rule engine runs. -/
def processMarkdownMerged (backend : Nat → String → Option String)
    (chunks : List String) : String :=
  mergeChunks (processChunks backend chunks)

/-! ## Backlink files (backlinks.ts, createBacklinks write loop) -/

/-- The header line content written for a keyword file. -/
def headerOf (kw : List Char) : List Char :=
  '#' :: ' ' :: kw

/-- One reference line, double-bracketed title plus newline. -/
def refLineOf (t : List Char) : List Char :=
  '[' :: '[' :: (t ++ [ ']', ']', '\n' ])

/-- String.prototype.includes: whether pat occurs as a contiguous
subsequence of the haystack. -/
def containsSeq (pat : List Char) : List Char → Bool
  | [] => pat.isEmpty
  | c :: cs => leadsWith pat (c :: cs) || containsSeq pat cs

/-- Embedding of the per-keyword file update of createBacklinks: a file
whose content lacks the header substring is rewritten as header, blank
line, first reference line; otherwise one reference line is appended.  An
absent file reads as the empty string. -/
def updateBacklinkFile (keyword title existing : List Char) : List Char :=
  if containsSeq (headerOf keyword) existing then existing ++ refLineOf title
  else headerOf keyword ++ '\n' :: '\n' :: refLineOf title

/-- The backlink file content for one keyword after a sequence of
createBacklinks calls with the given source titles, starting from an
absent file. -/
def runBacklinks (keyword : List Char) (titles : List (List Char)) : List Char :=
  titles.foldl (fun st t => updateBacklinkFile keyword t st) []

/-- Splits a file content into its newline-separated lines. -/
def splitLines (l : List Char) : List (List Char) :=
  splitOnChar '\n' l

/-! ## Duplicate file cleaning (fileCleaner.ts, cleanDuplicateFiles)

A directory listing is modelled as a list of (file name, creation time)
pairs in enumeration order.  JavaScript Map iteration preserves key
insertion order, and Array.prototype.sort is stable, which the insertion
sort below reproduces. -/

/-- Strip one trailing .md extension, as the regex dot-md-dollar does. -/
def stripMd (f : List Char) : List Char :=
  if List.isSuffixOf [ '.', 'm', 'd' ] f then f.take (f.length - 3) else f

/-- The regex class a-zA-Z0-9. -/
def isAlphaNumChar (c : Char) : Bool :=
  isAsciiUpper c || isAsciiLower c || isAsciiDigit c

/-- Embedding of normalizeFileName: strip the extension, strip every
non-alphanumeric character, lowercase. -/
def normalizeFileName (f : List Char) : List Char :=
  ((stripMd f).filter isAlphaNumChar).map jsToLowerChar

/-- Normalized key of a directory entry. -/
def normOf (f : String × Nat) : List Char :=
  normalizeFileName f.1.data

/-- Whether a file name ends in .md. -/
def endsWithMd (f : String) : Bool :=
  List.isSuffixOf [ '.', 'm', 'd' ] f.data

/-- The markdown files of the listing, in enumeration order. -/
def mdFilesOf (files : List (String × Nat)) : List (String × Nat) :=
  files.filter (fun f => endsWithMd f.1)

/-- Key accumulation of the grouping Map: insertion order of first
occurrence. -/
def insertKeyOrder (acc : List (List Char)) (k : List Char) : List (List Char) :=
  if k ∈ acc then acc else acc ++ [ k ]

/-- The normalized keys in Map insertion order. -/
def groupKeys (files : List (String × Nat)) : List (List Char) :=
  ((mdFilesOf files).map normOf).foldl insertKeyOrder []

/-- The groups of markdown files sharing one normalized key, iterated in
Map insertion order; each group lists its files in enumeration order. -/
def groupsOf (files : List (String × Nat)) : List (List (String × Nat)) :=
  (groupKeys files).map (fun k => (mdFilesOf files).filter (fun f => normOf f = k))

/-- Stable insertion into a list sorted by ascending creation time: the new
element goes before the first strictly later element and after earlier or
equal ones, which preserves enumeration order among ties. -/
def insertByBirth (x : String × Nat) : List (String × Nat) → List (String × Nat)
  | [] => [ x ]
  | y :: ys => if x.2 ≤ y.2 then x :: y :: ys else y :: insertByBirth x ys

/-- Embedding of sortFilesByAge: stable sort by ascending creation time,
as the ECMAScript stable Array sort with the birthtime comparator. -/
def sortFilesByAge (g : List (String × Nat)) : List (String × Nat) :=
  g.foldr insertByBirth []

/-- The deletions attempted by cleanDuplicateFiles, in execution order:
for each group with more than one member, every member after the first of
the age-sorted group. -/
def deletionSchedule (files : List (String × Nat)) : List String :=
  (groupsOf files).flatMap
    (fun g => if 1 < g.length then ((sortFilesByAge g).drop 1).map Prod.fst else [])

/-- The directory entries still present after a run in which every
scheduled deletion succeeded. -/
def survivorsAfterClean (files : List (String × Nat)) : List (String × Nat) :=
  files.filter (fun f => !((deletionSchedule files).contains f.1))

/-- The deletion loop with failure: fails tells which unlink calls throw
(for example because the file vanished).  The error value carries the
failing name and the deletions performed before it; a thrown error leaves
the loop at once, as an exception leaves the for loops of the source. -/
def deleteLoop (fails : String → Bool) : List String → Except (String × List String) (List String)
  | [] => Except.ok []
  | f :: rest =>
    if fails f then Except.error (f, [])
    else
      match deleteLoop fails rest with
      | Except.ok d => Except.ok (f :: d)
      | Except.error (e, d) => Except.error (e, f :: d)

/-- The files deleted by a loop outcome. -/
def extractDeleted (r : Except (String × List String) (List String)) : List String :=
  match r with
  | Except.ok d => d
  | Except.error (_, d) => d

/-- Embedding of cleanDuplicateFiles: the whole body runs inside one try
whose catch only logs, so the caller always gets a normal return; the
payload records which files were actually deleted. -/
def cleanDuplicateFiles (fails : String → Bool) (files : List (String × Nat)) :
    Except String (List String) :=
  match deleteLoop fails (deletionSchedule files) with
  | Except.ok d => Except.ok d
  | Except.error (_, d) => Except.ok d

/-- Sum of the source word counts of the paragraphs in one chunk; the
running currentCount of the splitMarkdown loop equals this sum for the
chunk under construction. -/
def sumWordCounts (g : List (List Char × List Char)) : Nat :=
  (g.map (fun pr => jsSplitWsLen pr.1)).sum

/-! ## Helper lemmas -/

theorem extractDeleted_deleteLoop (fails : String → Bool) (l : List String) :
    extractDeleted (deleteLoop fails l) = l.takeWhile (fun f => !(fails f)) := by
  induction l with
  | nil => rfl
  | cons f rest ih =>
    by_cases h : fails f = true
    · simp [deleteLoop, extractDeleted, h, List.takeWhile_cons]
    · have h2 : fails f = false := by revert h; cases fails f <;> simp
      simp only [deleteLoop, h2, Bool.false_eq_true, if_false, List.takeWhile_cons, Bool.not_false,
        if_true]
      cases hd : deleteLoop fails rest with
      | ok d => simp [extractDeleted, ← ih, hd]
      | error ed =>
        obtain ⟨e, d⟩ := ed
        simp [extractDeleted, ← ih, hd]

theorem leadsWith_append (pat l x : List Char) (h : leadsWith pat l = true) :
    leadsWith pat (l ++ x) = true := by
  induction pat generalizing l with
  | nil => rfl
  | cons a as ih =>
    cases l with
    | nil => simp [leadsWith] at h
    | cons b bs =>
      simp only [leadsWith, Bool.and_eq_true] at h ⊢
      exact ⟨h.1, ih bs h.2⟩

theorem leadsWith_refl (l x : List Char) : leadsWith l (l ++ x) = true := by
  induction l with
  | nil => rfl
  | cons a as ih => simp [leadsWith, ih]

theorem containsSeq_nil_pat (l : List Char) : containsSeq [] l = true := by
  cases l <;> simp [containsSeq, leadsWith, List.isEmpty]

theorem containsSeq_append (pat st x : List Char) (h : containsSeq pat st = true) :
    containsSeq pat (st ++ x) = true := by
  induction st with
  | nil =>
    simp only [containsSeq, List.isEmpty_iff] at h
    subst h
    simpa using containsSeq_nil_pat x
  | cons c cs ih =>
    simp only [containsSeq, Bool.or_eq_true] at h
    rcases h with h | h
    · simp only [List.cons_append, containsSeq, Bool.or_eq_true]
      exact Or.inl (by simpa using leadsWith_append pat (c :: cs) x h)
    · simp only [List.cons_append, containsSeq, Bool.or_eq_true]
      exact Or.inr (ih h)

theorem containsSeq_header (kw rest : List Char) :
    containsSeq (headerOf kw) (headerOf kw ++ rest) = true := by
  simp only [headerOf, List.cons_append, containsSeq, Bool.or_eq_true]
  exact Or.inl (leadsWith_refl ('#' :: ' ' :: kw) rest)

theorem backlink_fold_append (kw : List Char) (ts : List (List Char)) (st : List Char)
    (h : containsSeq (headerOf kw) st = true) :
    ts.foldl (fun st t => updateBacklinkFile kw t st) st = st ++ (ts.map refLineOf).flatten := by
  induction ts generalizing st with
  | nil => simp
  | cons t rest ih =>
    simp only [List.foldl_cons, List.map_cons, List.flatten_cons]
    rw [updateBacklinkFile, if_pos h, ih (st ++ refLineOf t) (containsSeq_append _ _ _ h)]
    simp [List.append_assoc]

theorem splitOnChar_append (sep : Char) (a b l : List Char) (ls : List (List Char))
    (ha : ∀ c ∈ a, ¬ c = sep) (hb : splitOnChar sep b = l :: ls) :
    splitOnChar sep (a ++ b) = (a ++ l) :: ls := by
  induction a with
  | nil => simpa using hb
  | cons c cs ih =>
    have hc : ¬ c = sep := ha c (by simp)
    have ih2 := ih (fun d hd => ha d (by simp [hd]))
    simp only [List.cons_append, splitOnChar, if_neg hc]
    rw [List.append_eq, ih2]

theorem refLineOf_eq_spanText (t : List Char) :
    refLineOf t = spanText t ++ [ '\n' ] := by
  simp [refLineOf, spanText]

theorem splitLines_refLines (ts : List (List Char)) (h : ∀ t ∈ ts, ¬ '\n' ∈ t) :
    splitOnChar '\n' ((ts.map refLineOf).flatten) = (ts.map spanText) ++ [ [] ] := by
  induction ts with
  | nil => rfl
  | cons t rest ih =>
    have ht : ¬ '\n' ∈ t := h t (by simp)
    have hlines : ∀ c ∈ spanText t, ¬ c = '\n' := by
      intro c hc he
      subst he
      apply ht
      simpa [spanText, List.mem_append] using hc
    have hshape : ((t :: rest).map refLineOf).flatten
        = spanText t ++ ('\n' :: (rest.map refLineOf).flatten) := by
      simp [refLineOf_eq_spanText, List.append_assoc]
    rw [hshape]
    rw [splitOnChar_append '\n' (spanText t) _ []
      (splitOnChar '\n' ((rest.map refLineOf).flatten)) hlines (by simp [splitOnChar])]
    rw [ih (fun u hu => h u (by simp [hu]))]
    simp

theorem runBacklinks_closed_form (kw t0 : List Char) (ts : List (List Char)) :
    runBacklinks kw (t0 :: ts) =
      headerOf kw ++ '\n' :: '\n' :: ((t0 :: ts).map refLineOf).flatten := by
  have hempty : containsSeq (headerOf kw) [] = false := by
    simp [containsSeq, headerOf, List.isEmpty]
  have hfirst : updateBacklinkFile kw t0 [] =
      headerOf kw ++ '\n' :: '\n' :: refLineOf t0 := by
    rw [updateBacklinkFile, if_neg (by simp [hempty])]
  show List.foldl (fun st t => updateBacklinkFile kw t st) (updateBacklinkFile kw t0 []) ts = _
  rw [hfirst, backlink_fold_append kw ts _ (containsSeq_header kw _)]
  simp [List.append_assoc]

/-! ## Claim theorems -/

/-- C3: a document whose length is at most twice the configured chunk size
bound skips the chunker: processMarkdown uses the whole content as the
single chunk, so one backend call receives the whole content. -/
theorem claim_C3 (content : String) (chunkSize : Nat)
    (h : content.length ≤ 2 * chunkSize) :
    chunksForContent content chunkSize = [ content ] ∧
    ∀ backend : Nat → String → Option String,
      processChunks backend [ content ] = [ (backend 0 content).getD content ] := by
  constructor
  · rw [chunksForContent, if_neg (by omega)]
  · intro backend
    rfl

/-- C3 witness at a concrete document and bound. -/
theorem claim_C3_witness :
    ("hello" : String).length ≤ 2 * 3000 ∧ chunksForContent "hello" 3000 = [ "hello" ] :=
  ⟨by decide, (claim_C3 "hello" 3000 (by decide)).1⟩

/-- C6: evaluation of normalizeKeyword pinning the suffix rules.  The es
branch runs before the unreachable ies branch, so studies maps to studi,
not to study as the spec (and the dead ies branch of the code itself)
intends; the es, plain s and no-suffix cases behave as claimed. -/
theorem claim_C6 :
    normalizeKeywordS "studies" = "studi" ∧
    normalizeKeywordS "studies" ≠ "study" ∧
    normalizeKeywordS "boxes" = "box" ∧
    normalizeKeywordS "cats" = "cat" ∧
    normalizeKeywordS "dog" = "dog" ∧
    normalizeKeywordS "s" = "s" := by
  refine ⟨by decide, by decide, by decide, by decide, by decide, by decide⟩

/-- C4 counterexample: on the exact text of the claim the name filter
(rule 2) deletes the three capitalized spans in full before duplicate
suppression can run, so no span stays bracketed and no surface text is
retained. -/
theorem claim_C4_counterexample :
    applyRulesS "[[Cat]] a [[Cats]] b [[Cat]]" = " a  b " ∧
    (applyRulesS "[[Cat]] a [[Cats]] b [[Cat]]").data.count '[' = 0 := by
  refine ⟨by decide, by decide⟩

/-- C4 amended: duplicate suppression keeps the first span of a normalized
form and strips later same-form spans to their surface text, as shown on
lower-case keywords which the name filter leaves alone, and by the
duplicate-suppression pass taken on its own on the capitalized text. -/
theorem claim_C4 :
    applyRulesS "[[cat]] a [[cats]] b [[cat]]" = "[[cat]] a cats b cat" ∧
    removeDuplicateConceptsS "[[Cat]] a [[Cats]] b [[Cat]]" = "[[Cat]] a Cats b Cat" := by
  refine ⟨by decide, by decide⟩

/-- C5 counterexample: running both filters before duplicate suppression
(the order the claim asserts) differs from applyRules on a text whose
reference spans share a normalized form: the code strips the later span as
a duplicate before the reference filter deletes the first one. -/
theorem claim_C5_counterexample :
    applyRulesS "[[@xs]] [[@xs]]" = " @xs" ∧
    applyRulesFiltersFirstS "[[@xs]] [[@xs]]" = " " ∧
    applyRulesS "[[@xs]] [[@xs]]" ≠ applyRulesFiltersFirstS "[[@xs]] [[@xs]]" := by
  refine ⟨by decide, by decide, by decide⟩

/-- C5 amended: applyRules runs the name filter first, duplicate
suppression second and the reference filter last, so only the name filter
precedes duplicate suppression; the concrete evaluation shows a span
deleted by the reference filter still counting as the kept first
occurrence of its normalized form. -/
theorem claim_C5 :
    (∀ text : List Char,
      applyRules text = ignoreReferences (removeDuplicateConcepts (skipConventionalNames text))) ∧
    applyRulesS "[[@xs]] [[@xs]]" = " @xs" :=
  ⟨fun _ => rfl, by decide⟩

/-- C9 counterexample: three files collide in one group and the deletion of
the first scheduled duplicate fails (the file vanished); the source catch
wraps the whole function body, so the loop stops and the second scheduled
duplicate, whose deletion would succeed, is never deleted. -/
theorem claim_C9_counterexample :
    deletionSchedule [ ("a.md", 0), ("A.md", 1), ("(a).md", 2) ] = [ "A.md", "(a).md" ] ∧
    cleanDuplicateFiles (fun f => f == "A.md") [ ("a.md", 0), ("A.md", 1), ("(a).md", 2) ]
      = Except.ok [] ∧
    (fun f : String => f == "A.md") "(a).md" = false := by
  refine ⟨by decide, rfl, by decide⟩

/-- C9 amended: a deletion failure never reaches the caller (the function
always returns normally), but it ends the whole batch: exactly the
scheduled deletions before the first failing one are performed. -/
theorem claim_C9 (fails : String → Bool) (files : List (String × Nat)) :
    cleanDuplicateFiles fails files
      = Except.ok ((deletionSchedule files).takeWhile (fun f => !(fails f))) := by
  have h := extractDeleted_deleteLoop fails (deletionSchedule files)
  rw [cleanDuplicateFiles.eq_def]
  cases hd : deleteLoop fails (deletionSchedule files) with
  | ok d =>
    rw [hd] at h
    simp only [extractDeleted] at h
    rw [h]
  | error ed =>
    obtain ⟨e, d⟩ := ed
    rw [hd] at h
    simp only [extractDeleted] at h
    rw [h]

/-- C10: getProvider accepts exactly the seven known identifiers after
lowercasing (so matching is case-insensitive on the accepted set) and
throws Unknown provider with the original name for every other input. -/
theorem claim_C10 (name : String) :
    ((getProvider name).isOk = true ↔ jsToLower name ∈ providerIds) ∧
    (jsToLower name ∉ providerIds →
      getProvider name = Except.error (String.append "Unknown provider: " name)) ∧
    (∀ name2 : String, jsToLower name = jsToLower name2 → jsToLower name ∈ providerIds →
      getProvider name = getProvider name2) := by
  refine ⟨?_, ?_, ?_⟩
  · simp only [getProvider, providerIds, List.mem_cons, List.mem_singleton, List.not_mem_nil,
      or_false]
    split_ifs <;> simp_all [Except.isOk, Except.toBool]
  · intro hmem
    simp only [providerIds, List.mem_cons, List.mem_singleton, List.not_mem_nil, or_false,
      not_or] at hmem
    simp only [getProvider]
    split_ifs <;> simp_all
  · intro name2 heq hmem
    simp only [providerIds, List.mem_cons, List.mem_singleton, List.not_mem_nil,
      or_false] at hmem
    simp only [getProvider, ← heq]
    split_ifs <;> simp_all

/-- C10 witness: an unknown identifier is rejected with the interpolated
original name, and a cased known identifier is accepted. -/
theorem claim_C10_witness :
    (jsToLower "FooBar" ∉ providerIds) ∧
    getProvider "FooBar" = Except.error (String.append "Unknown provider: " "FooBar") :=
  ⟨by decide, (claim_C10 "FooBar").2.1 (by decide)⟩

/-- C7: starting from an absent backlink file, a sequence of createBacklinks
updates for one keyword writes the header once, followed by one reference
line per call in call order with no deduplication; the header line occurs
exactly once in the resulting file. -/
theorem claim_C7 (kw t0 : List Char) (ts : List (List Char))
    (hkw : ¬ '\n' ∈ kw) (hts : ∀ t ∈ t0 :: ts, ¬ '\n' ∈ t) :
    runBacklinks kw (t0 :: ts) =
      headerOf kw ++ '\n' :: '\n' :: ((t0 :: ts).map refLineOf).flatten ∧
    (splitLines (runBacklinks kw (t0 :: ts))).count (headerOf kw) = 1 := by
  have hform := runBacklinks_closed_form kw t0 ts
  refine ⟨hform, ?_⟩
  have hheader : ∀ c ∈ headerOf kw, ¬ c = '\n' := by
    intro c hc he
    subst he
    apply hkw
    simpa [headerOf] using hc
  have hflat := splitLines_refLines (t0 :: ts) hts
  have hlines : splitLines (runBacklinks kw (t0 :: ts)) =
      headerOf kw :: [] :: (((t0 :: ts).map spanText) ++ [ [] ]) := by
    have hb : splitOnChar '\n' ('\n' :: '\n' :: ((t0 :: ts).map refLineOf).flatten)
        = [] :: [] :: (((t0 :: ts).map spanText) ++ [ [] ]) := by
      rw [splitOnChar, if_pos rfl, splitOnChar, if_pos rfl, hflat]
    rw [hform, splitLines]
    rw [splitOnChar_append '\n' (headerOf kw) _ []
      ([] :: (((t0 :: ts).map spanText) ++ [ [] ])) hheader hb]
    simp
  rw [hlines]
  have hne : (headerOf kw) ∉ ([] : List Char) :: (((t0 :: ts).map spanText) ++ [ ([] : List Char) ]) := by
    intro hmem
    simp only [List.mem_cons, List.mem_append, List.mem_map, List.mem_singleton] at hmem
    rcases hmem with hmem | ⟨u, _, hu⟩ | hmem
    · exact absurd hmem (by simp [headerOf])
    · rw [headerOf, spanText] at hu
      simp at hu
    · exact absurd hmem (by simp [headerOf])
  rw [List.count_cons_self, List.count_eq_zero.2 hne]

/-- C7 witness: one keyword, two source titles, concrete evaluation. -/
theorem claim_C7_witness :
    (¬ '\n' ∈ ("science" : String).data) ∧
    (splitLines (runBacklinks ("science" : String).data
      [ ("Doc1" : String).data, ("Doc2" : String).data ])).count
      (headerOf ("science" : String).data) = 1 :=
  ⟨by decide, (claim_C7 ("science" : String).data ("Doc1" : String).data
    [ ("Doc2" : String).data ] (by decide) (by decide)).2⟩

/-- C1: with a sequential backend that fails exactly on chunk i, the merged
text of the orchestration loop is the blank-line join of the per-chunk
results in original order, where position i holds the original chunk text
and every other position holds the backend output for that chunk. -/
theorem claim_C1 (chunks : List String) (backend : Nat → String → Option String) (i : Nat)
    (hi : i < chunks.length)
    (hfail : backend i (chunks.get ⟨i, hi⟩) = none)
    (hsucc : ∀ (j : Nat) (hj : j < chunks.length), j ≠ i →
      (backend j (chunks.get ⟨j, hj⟩)).isSome = true) :
    processMarkdownMerged backend chunks
      = String.intercalate "\n\n" (processChunks backend chunks) ∧
    (processChunks backend chunks).length = chunks.length ∧
    (∀ (j : Nat) (hj : j < chunks.length) (hr : j < (processChunks backend chunks).length),
      (j = i → (processChunks backend chunks).get ⟨j, hr⟩ = chunks.get ⟨j, hj⟩) ∧
      (j ≠ i → backend j (chunks.get ⟨j, hj⟩)
        = some ((processChunks backend chunks).get ⟨j, hr⟩))) := by
  refine ⟨rfl, by simp [processChunks], ?_⟩
  intro j hj hr
  have hget : (processChunks backend chunks).get ⟨j, hr⟩
      = (backend j (chunks.get ⟨j, hj⟩)).getD (chunks.get ⟨j, hj⟩) := by
    simp [processChunks, List.get_eq_getElem, List.getElem_map, List.getElem_enum]
  constructor
  · intro he
    subst he
    rw [hget, hfail]
    rfl
  · intro hne
    obtain ⟨out, hout⟩ := Option.isSome_iff_exists.1 (hsucc j hj hne)
    rw [hget, hout]
    rfl

/-- C1 witness: three chunks, failure at position 1, annotation appends an
exclamation mark; the merged text keeps the original middle chunk. -/
theorem claim_C1_witness :
    ((fun (j : Nat) (c : String) => if j = 1 then none else some (String.append c "!")) 1
      (([ "a", "b", "c" ] : List String).get ⟨1, by decide⟩) = none) ∧
    processMarkdownMerged
      (fun (j : Nat) (c : String) => if j = 1 then none else some (String.append c "!"))
      [ "a", "b", "c" ] = "a!\n\nb\n\nc!" ∧
    (processChunks
      (fun (j : Nat) (c : String) => if j = 1 then none else some (String.append c "!"))
      [ "a", "b", "c" ]).length = 3 := by
  have h := claim_C1 [ "a", "b", "c" ]
    (fun (j : Nat) (c : String) => if j = 1 then none else some (String.append c "!"))
    1 (by decide) rfl (by decide)
  exact ⟨rfl, by decide, h.2.1⟩

theorem countRunsAux_append (p : Char → Bool) (a : List Char) :
    ∀ (b : Bool) (x : List Char),
      countRunsAux p b (a ++ x)
        = countRunsAux p b a + countRunsAux p (a.foldl (fun _ c => p c) b) x := by
  induction a with
  | nil => intro b x; simp [countRunsAux]
  | cons c cs ih =>
    intro b x
    by_cases hc : p c = true
    · simp only [List.cons_append, countRunsAux, hc, if_true, List.foldl_cons, List.append_eq,
        ih true x]
      omega
    · have hc2 : p c = false := by revert hc; cases p c <;> simp
      simp only [List.cons_append, countRunsAux, hc2, Bool.false_eq_true, if_false,
        List.foldl_cons, List.append_eq, ih false x]

theorem countRunsAux_true_le (p : Char → Bool) (l : List Char) :
    countRunsAux p true l ≤ countRunsAux p false l := by
  induction l with
  | nil => exact Nat.le_refl 0
  | cons c cs ih =>
    by_cases hc : p c = true
    · simp only [countRunsAux, hc, if_true]
      omega
    · have hc2 : p c = false := by revert hc; cases p c <;> simp
      simp [countRunsAux, hc2]

theorem countRunsAux_any_le (p : Char → Bool) (b : Bool) (l : List Char) :
    countRunsAux p b l ≤ countRunsAux p false l := by
  cases b
  · exact Nat.le_refl _
  · exact countRunsAux_true_le p l

theorem countRunsAux_all_false (p : Char → Bool) (l : List Char)
    (h : ∀ c ∈ l, p c = false) : ∀ b, countRunsAux p b l = 0 := by
  induction l with
  | nil => intro b; rfl
  | cons c cs ih =>
    intro b
    have hc := h c (by simp)
    simp only [countRunsAux, hc, Bool.false_eq_true, if_false]
    exact ih (fun d hd => h d (by simp [hd])) false

theorem countTokens_append_ws (pp s : List Char) (h : s.all jsIsSpace = true) :
    countTokens (pp ++ s) = countTokens pp := by
  have hall : ∀ c ∈ s, (fun c => !jsIsSpace c) c = false := by
    intro c hc
    have := List.all_eq_true.1 h c hc
    simp [this]
  simp only [countTokens, countRuns, countRunsAux_append,
    countRunsAux_all_false _ s hall, Nat.add_zero]

theorem countTokens_append_le (a x : List Char) :
    countTokens (a ++ x) ≤ countTokens a + countTokens x := by
  simp only [countTokens, countRuns, countRunsAux_append]
  exact Nat.add_le_add_left (countRunsAux_any_le _ _ x) _

theorem countRunsAux_alternate (p : Char → Bool) (l : List Char) :
    countRunsAux p true l ≤ countRunsAux (fun c => !p c) false l ∧
    countRunsAux p false l ≤ countRunsAux (fun c => !p c) true l + 1 := by
  induction l with
  | nil => exact ⟨Nat.le_refl 0, Nat.zero_le 1⟩
  | cons c cs ih =>
    by_cases hc : p c = true
    · constructor
      · simp only [countRunsAux, hc, if_true, Bool.not_true, Bool.false_eq_true, if_false]
        omega
      · simp only [countRunsAux, hc, if_true, Bool.not_true, Bool.false_eq_true, if_false]
        omega
    · have hc2 : p c = false := by revert hc; cases p c <;> simp
      constructor
      · simp only [countRunsAux, hc2, Bool.false_eq_true, if_false, Bool.not_false, if_true]
        omega
      · simp only [countRunsAux, hc2, Bool.false_eq_true, if_false, Bool.not_false, if_true]
        omega

theorem countRunsAux_congr (p q : Char → Bool) (h : ∀ c, p c = q c) (b : Bool)
    (l : List Char) : countRunsAux p b l = countRunsAux q b l := by
  induction l generalizing b with
  | nil => rfl
  | cons c cs ih => simp only [countRunsAux, h c, ih]

theorem countTokens_le_jsSplitWsLen (l : List Char) :
    countTokens l ≤ jsSplitWsLen l := by
  have h1 := (countRunsAux_alternate (fun c => !jsIsSpace c) l).2
  have h2 : countRunsAux (fun c => !(!jsIsSpace c)) true l
      = countRunsAux jsIsSpace true l :=
    countRunsAux_congr _ _ (fun c => by simp) true l
  have h3 := countRunsAux_true_le jsIsSpace l
  simp only [countTokens, countRuns, jsSplitWsLen]
  omega

theorem splitParasGo_sep_ws (l : List Char) :
    ∀ (paraRev : List Char) (ws : Option (List Char)),
      (∀ w, ws = some w → w.all jsIsSpace = true) →
      ∀ pr ∈ splitParasGo paraRev ws l, pr.2.all jsIsSpace = true := by
  induction l with
  | nil =>
    intro paraRev ws hws pr hpr
    cases ws with
    | none =>
      simp only [splitParasGo, List.mem_singleton] at hpr
      subst hpr
      rfl
    | some wsRev =>
      have hall := hws wsRev rfl
      by_cases h2 : 2 ≤ newlineCount wsRev
      · simp only [splitParasGo, if_pos h2, List.mem_cons, List.mem_singleton,
          List.not_mem_nil, or_false] at hpr
        rcases hpr with hpr | hpr <;> subst hpr
        · simp only [List.all_reverse]
          refine List.all_eq_true.2 (fun c hc => ?_)
          exact List.all_eq_true.1 hall c (List.mem_of_mem_drop hc)
        · rfl
      · simp only [splitParasGo, if_neg h2, List.mem_singleton] at hpr
        subst hpr
        rfl
  | cons c cs ih =>
    intro paraRev ws hws pr hpr
    cases ws with
    | none =>
      simp only [splitParasGo] at hpr
      by_cases hc : c = '\n'
      · rw [if_pos hc] at hpr
        refine ih paraRev (some [ c ]) (fun w hw => ?_) pr hpr
        cases hw
        simp [hc, jsIsSpace]
      · rw [if_neg hc] at hpr
        exact ih (c :: paraRev) none (fun w hw => by cases hw) pr hpr
    | some wsRev =>
      have hall := hws wsRev rfl
      simp only [splitParasGo] at hpr
      by_cases hsp : jsIsSpace c = true
      · rw [if_pos hsp] at hpr
        refine ih paraRev (some (c :: wsRev)) (fun w hw => ?_) pr hpr
        cases hw
        simp only [List.all_cons, hall, hsp, Bool.and_self]
      · rw [if_neg (by simp [hsp])] at hpr
        by_cases h2 : 2 ≤ newlineCount wsRev
        · rw [if_pos h2] at hpr
          simp only [List.mem_cons] at hpr
          rcases hpr with hpr | hpr
          · subst hpr
            simp only [List.all_reverse]
            refine List.all_eq_true.2 (fun d hd => ?_)
            exact List.all_eq_true.1 hall d (List.mem_of_mem_drop hd)
          · exact ih _ none (fun w hw => by cases hw) pr hpr
        · rw [if_neg h2] at hpr
          exact ih _ none (fun w hw => by cases hw) pr hpr

theorem splitParas_sep_ws (content : List Char) :
    ∀ pr ∈ splitParas content, pr.2.all jsIsSpace = true :=
  splitParasGo_sep_ws content [] none (fun w hw => by cases hw)

theorem sumWordCounts_pos (cur : List (List Char × List Char)) (h : cur ≠ []) :
    0 < sumWordCounts cur := by
  cases cur with
  | nil => exact absurd rfl h
  | cons pr rest => simp [sumWordCounts, jsSplitWsLen]

theorem sumWordCounts_reverse (l : List (List Char × List Char)) :
    sumWordCounts l.reverse = sumWordCounts l := by
  simp [sumWordCounts, List.map_reverse, List.sum_reverse]

theorem buildChunksGo_inv (chunkSize : Nat) (pairs : List (List Char × List Char)) :
    ∀ (cur : List (List Char × List Char)) (cnt : Nat),
      cnt = sumWordCounts cur →
      (cur ≠ [] → cur.length = 1 ∨ cnt ≤ chunkSize) →
      ∀ g ∈ buildChunksGo chunkSize cur cnt pairs,
        g ≠ [] ∧ (g.length = 1 ∨ sumWordCounts g ≤ chunkSize) := by
  induction pairs with
  | nil =>
    intro cur cnt hcnt hcur g hg
    simp only [buildChunksGo] at hg
    by_cases he : cur.isEmpty
    · rw [if_pos he] at hg
      simp at hg
    · rw [if_neg he] at hg
      simp only [List.mem_singleton] at hg
      subst hg
      have hne : cur ≠ [] := by
        intro h0
        exact he (by simp [h0])
      refine ⟨by simp [hne], ?_⟩
      rcases hcur hne with h1 | h1
      · exact Or.inl (by simp [h1])
      · exact Or.inr (by rw [sumWordCounts_reverse, ← hcnt]; exact h1)
  | cons pr rest ih =>
    intro cur cnt hcnt hcur g hg
    obtain ⟨p, s⟩ := pr
    simp only [buildChunksGo] at hg
    by_cases hws : p.all jsIsSpace = true
    · rw [if_pos hws] at hg
      exact ih cur cnt hcnt hcur g hg
    · rw [if_neg hws] at hg
      by_cases hclose : chunkSize < cnt + jsSplitWsLen p ∧ 0 < cnt
      · rw [if_pos hclose] at hg
        simp only [List.mem_cons] at hg
        rcases hg with hg | hg
        · subst hg
          have hne : cur ≠ [] := by
            intro h0
            rw [hcnt, h0] at hclose
            exact absurd hclose.2 (by simp [sumWordCounts])
          refine ⟨by simp [hne], ?_⟩
          rcases hcur hne with h1 | h1
          · exact Or.inl (by simp [h1])
          · exact Or.inr (by rw [sumWordCounts_reverse, ← hcnt]; exact h1)
        · refine ih [ (p, s) ] (jsSplitWsLen p) (by simp [sumWordCounts]) ?_ g hg
          intro _
          exact Or.inl rfl
      · rw [if_neg hclose] at hg
        refine ih ((p, s) :: cur) (cnt + jsSplitWsLen p) ?_ ?_ g hg
        · simp only [sumWordCounts, List.map_cons, List.sum_cons] at hcnt ⊢
          omega
        · intro _
          by_cases hne : cur = []
          · subst hne
            rw [hcnt]
            exact Or.inl (by simp [sumWordCounts])
          · have hpos : 0 < cnt := hcnt ▸ sumWordCounts_pos cur hne
            have : ¬ chunkSize < cnt + jsSplitWsLen p := fun hlt => hclose ⟨hlt, hpos⟩
            exact Or.inr (by omega)

theorem buildChunksGo_mem (chunkSize : Nat) (pairs : List (List Char × List Char)) :
    ∀ (cur : List (List Char × List Char)) (cnt : Nat),
      ∀ g ∈ buildChunksGo chunkSize cur cnt pairs, ∀ pr ∈ g, pr ∈ cur ∨ pr ∈ pairs := by
  induction pairs with
  | nil =>
    intro cur cnt g hg pr hpr
    simp only [buildChunksGo] at hg
    by_cases he : cur.isEmpty
    · rw [if_pos he] at hg
      simp at hg
    · rw [if_neg he] at hg
      simp only [List.mem_singleton] at hg
      subst hg
      exact Or.inl (List.mem_reverse.1 hpr)
  | cons q rest ih =>
    intro cur cnt g hg pr hpr
    obtain ⟨p, s⟩ := q
    simp only [buildChunksGo] at hg
    by_cases hws : p.all jsIsSpace = true
    · rw [if_pos hws] at hg
      rcases ih cur cnt g hg pr hpr with h | h
      · exact Or.inl h
      · exact Or.inr (by simp [h])
    · rw [if_neg hws] at hg
      by_cases hclose : chunkSize < cnt + jsSplitWsLen p ∧ 0 < cnt
      · rw [if_pos hclose] at hg
        simp only [List.mem_cons] at hg
        rcases hg with hg | hg
        · subst hg
          exact Or.inl (List.mem_reverse.1 hpr)
        · rcases ih [ (p, s) ] (jsSplitWsLen p) g hg pr hpr with h | h
          · simp only [List.mem_singleton] at h
            exact Or.inr (by simp [h])
          · exact Or.inr (by simp [h])
      · rw [if_neg hclose] at hg
        rcases ih ((p, s) :: cur) (cnt + jsSplitWsLen p) g hg pr hpr with h | h
        · simp only [List.mem_cons] at h
          rcases h with h | h
          · exact Or.inr (by simp [h])
          · exact Or.inl h
        · exact Or.inr (by simp [h])

theorem buildChunksGo_flatten (chunkSize : Nat) (pairs : List (List Char × List Char)) :
    ∀ (cur : List (List Char × List Char)) (cnt : Nat),
      (buildChunksGo chunkSize cur cnt pairs).flatten
        = cur.reverse ++ pairs.filter (fun pr => !(pr.1.all jsIsSpace)) := by
  induction pairs with
  | nil =>
    intro cur cnt
    simp only [buildChunksGo]
    by_cases he : cur.isEmpty
    · rw [if_pos he]
      have : cur = [] := by
        cases cur
        · rfl
        · simp [List.isEmpty] at he
      simp [this]
    · rw [if_neg he]
      simp
  | cons q rest ih =>
    intro cur cnt
    obtain ⟨p, s⟩ := q
    simp only [buildChunksGo]
    by_cases hws : p.all jsIsSpace = true
    · rw [if_pos hws]
      rw [ih cur cnt]
      simp [List.filter_cons, hws]
    · rw [if_neg hws]
      have hkeep : (fun pr : List Char × List Char => !(pr.1.all jsIsSpace)) (p, s) = true := by
        simp [hws]
      by_cases hclose : chunkSize < cnt + jsSplitWsLen p ∧ 0 < cnt
      · rw [if_pos hclose]
        simp only [List.flatten_cons, ih [ (p, s) ] (jsSplitWsLen p)]
        simp [List.filter_cons, hws]
      · rw [if_neg hclose]
        rw [ih ((p, s) :: cur) (cnt + jsSplitWsLen p)]
        simp [List.filter_cons, hws, List.append_assoc]

theorem countTokens_renderChunk_le (g : List (List Char × List Char))
    (h : ∀ pr ∈ g, pr.2.all jsIsSpace = true) :
    countTokens (renderChunk g) ≤ sumWordCounts g := by
  induction g with
  | nil => exact Nat.le_refl 0
  | cons pr rest ih =>
    obtain ⟨p, s⟩ := pr
    have hstep : renderChunk ((p, s) :: rest) = (p ++ s) ++ renderChunk rest := by
      simp [renderChunk]
    rw [hstep]
    calc countTokens ((p ++ s) ++ renderChunk rest)
        ≤ countTokens (p ++ s) + countTokens (renderChunk rest) :=
          countTokens_append_le _ _
      _ = countTokens p + countTokens (renderChunk rest) := by
          rw [countTokens_append_ws p s (h (p, s) (by simp))]
      _ ≤ jsSplitWsLen p + sumWordCounts rest :=
          Nat.add_le_add (countTokens_le_jsSplitWsLen p)
            (ih (fun q hq => h q (by simp [hq])))
      _ = sumWordCounts ((p, s) :: rest) := by
          simp [sumWordCounts]

theorem countTokens_renderChunk_single (p s : List Char) (h : s.all jsIsSpace = true) :
    countTokens (renderChunk [ (p, s) ]) = countTokens p := by
  have : renderChunk [ (p, s) ] = p ++ s := by simp [renderChunk]
  rw [this, countTokens_append_ws p s h]

/-- C2: every chunk produced by splitMarkdown keeps its whitespace token
count within the bound unless it consists of one single oversized
paragraph; an oversized paragraph always sits alone in its chunk, and the
chunks partition exactly the non-blank paragraphs in order, so no
paragraph is ever split across chunks. -/
theorem claim_C2 (content : List Char) (chunkSize : Nat) (_hpos : 0 < chunkSize) :
    (∀ chunk ∈ splitMarkdown content chunkSize,
      countTokens chunk ≤ chunkSize ∨
      ∃ p s, chunk = renderChunk [ (p, s) ] ∧
        [ (p, s) ] ∈ chunkGroups content chunkSize ∧
        chunkSize < countTokens p ∧ countTokens chunk = countTokens p) ∧
    (∀ g ∈ chunkGroups content chunkSize, ∀ pr ∈ g,
      chunkSize < countTokens pr.1 → g = [ pr ]) ∧
    ((chunkGroups content chunkSize).flatten
      = (splitParas content).filter (fun pr => !(pr.1.all jsIsSpace))) := by
  have hsep : ∀ g ∈ chunkGroups content chunkSize, ∀ pr ∈ g, pr.2.all jsIsSpace = true := by
    intro g hg pr hpr
    rcases buildChunksGo_mem chunkSize (splitParas content) [] 0 g hg pr hpr with h | h
    · simp at h
    · exact splitParas_sep_ws content pr h
  have hinv : ∀ g ∈ chunkGroups content chunkSize,
      g ≠ [] ∧ (g.length = 1 ∨ sumWordCounts g ≤ chunkSize) :=
    buildChunksGo_inv chunkSize (splitParas content) [] 0 rfl (fun h => absurd rfl h)
  refine ⟨?_, ?_, ?_⟩
  · intro chunk hchunk
    obtain ⟨g, hg, hrender⟩ := List.mem_map.1 hchunk
    subst hrender
    rcases (hinv g hg).2 with hlen | hsum
    · obtain ⟨pr, hpr⟩ := List.length_eq_one.1 hlen
      obtain ⟨p, s⟩ := pr
      subst hpr
      by_cases hle : countTokens (renderChunk [ (p, s) ]) ≤ chunkSize
      · exact Or.inl hle
      · refine Or.inr ⟨p, s, rfl, hg, ?_, ?_⟩
        · have heq := countTokens_renderChunk_single p s (hsep _ hg (p, s) (by simp))
          omega
        · exact countTokens_renderChunk_single p s (hsep _ hg (p, s) (by simp))
    · exact Or.inl (Nat.le_trans (countTokens_renderChunk_le g (hsep g hg)) hsum)
  · intro g hg pr hpr hbig
    rcases (hinv g hg).2 with hlen | hsum
    · obtain ⟨q, hq⟩ := List.length_eq_one.1 hlen
      subst hq
      simp only [List.mem_singleton] at hpr
      subst hpr
      rfl
    · exfalso
      have hmem : jsSplitWsLen pr.1 ∈ g.map (fun pr => jsSplitWsLen pr.1) :=
        List.mem_map_of_mem _ hpr
      have hle : jsSplitWsLen pr.1 ≤ sumWordCounts g :=
        List.single_le_sum (fun x _ => Nat.zero_le x) _ hmem
      have htok := countTokens_le_jsSplitWsLen pr.1
      omega
  · exact buildChunksGo_flatten chunkSize (splitParas content) [] 0

/-- C2 witness: bound 2, a first paragraph of three tokens (oversized, kept
alone and unsplit) and a second paragraph of two tokens. -/
theorem claim_C2_witness :
    0 < 2 ∧
    splitMarkdown ("one two three\n\nfour five" : String).data 2
      = [ ("one two three\n\n" : String).data, ("four five" : String).data ] ∧
    ((chunkGroups ("one two three\n\nfour five" : String).data 2).flatten
      = (splitParas ("one two three\n\nfour five" : String).data).filter
          (fun pr => !(pr.1.all jsIsSpace))) :=
  ⟨by decide, by decide,
    (claim_C2 ("one two three\n\nfour five" : String).data 2 (by decide)).2.2⟩

theorem insertByBirth_perm (x : String × Nat) (l : List (String × Nat)) :
    (insertByBirth x l).Perm (x :: l) := by
  induction l with
  | nil => exact List.Perm.refl _
  | cons y ys ih =>
    by_cases h : x.2 ≤ y.2
    · rw [insertByBirth, if_pos h]
    · rw [insertByBirth, if_neg h]
      exact (ih.cons y).trans (List.Perm.swap x y ys)

theorem sortFilesByAge_perm (g : List (String × Nat)) :
    (sortFilesByAge g).Perm g := by
  induction g with
  | nil => exact List.Perm.refl _
  | cons x xs ih =>
    show (insertByBirth x (sortFilesByAge xs)).Perm (x :: xs)
    exact (insertByBirth_perm x (sortFilesByAge xs)).trans (ih.cons x)

theorem sortFilesByAge_first_min (g : List (String × Nat)) (hne : g ≠ []) :
    ∃ h t, sortFilesByAge g = h :: t ∧ (∀ f ∈ g, h.2 ≤ f.2) ∧
      ∃ pre post, g = pre ++ h :: post ∧ ∀ f ∈ pre, h.2 < f.2 := by
  induction g with
  | nil => exact absurd rfl hne
  | cons x xs ih =>
    cases xs with
    | nil =>
      refine ⟨x, [], rfl, ?_, [], [], rfl, by simp⟩
      intro f hf
      simp only [List.mem_singleton] at hf
      subst hf
      exact Nat.le_refl _
    | cons y ys =>
      obtain ⟨h0, t0, hsort, hmin, pre0, post0, hsplit, hpre⟩ := ih (by simp)
      have hstep : sortFilesByAge (x :: y :: ys) = insertByBirth x (sortFilesByAge (y :: ys)) :=
        rfl
      rw [hsort] at hstep
      by_cases hle : x.2 ≤ h0.2
      · rw [insertByBirth, if_pos hle] at hstep
        refine ⟨x, h0 :: t0, hstep, ?_, [], y :: ys, rfl, by simp⟩
        intro f hf
        rcases List.mem_cons.1 hf with rfl | hf
        · exact Nat.le_refl _
        · exact Nat.le_trans hle (hmin f hf)
      · rw [insertByBirth, if_neg hle] at hstep
        have hlt : h0.2 < x.2 := Nat.lt_of_not_le hle
        refine ⟨h0, insertByBirth x t0, hstep, ?_, x :: pre0, post0, by rw [hsplit]; rfl, ?_⟩
        · intro f hf
          rcases List.mem_cons.1 hf with rfl | hf
          · exact Nat.le_of_lt hlt
          · exact hmin f hf
        · intro f hf
          rcases List.mem_cons.1 hf with rfl | hf
          · exact hlt
          · exact hpre f hf

theorem filter_eq_single_of_mem {α : Type} [DecidableEq α] (l : List α) (a : α)
    (hnd : l.Nodup) (ha : a ∈ l) (p : α → Bool) (hp : ∀ x ∈ l, p x = true ↔ x = a) :
    l.filter p = [ a ] := by
  induction l with
  | nil => simp at ha
  | cons x xs ih =>
    by_cases hxa : x = a
    · subst hxa
      have hx : p x = true := (hp x (by simp)).2 rfl
      rw [List.filter_cons, if_pos hx]
      have hxs : xs.filter p = [] := by
        refine List.filter_eq_nil_iff.2 (fun b hb hpb => ?_)
        have hba := (hp b (by simp [hb])).1 hpb
        subst hba
        exact (List.nodup_cons.1 hnd).1 hb
      rw [hxs]
    · have ha2 : a ∈ xs := by
        rcases List.mem_cons.1 ha with h | h
        · exact absurd h.symm hxa
        · exact h
      have hx : p x = false := by
        rcases hpx : p x with _ | _
        · rfl
        · exact absurd ((hp x (by simp)).1 hpx) hxa
      rw [List.filter_cons, if_neg (by simp [hx])]
      exact ih (List.nodup_cons.1 hnd).2 ha2 (fun b hb => hp b (by simp [hb]))

theorem foldl_insertKeyOrder_mem (k : List Char) (l : List (List Char)) :
    ∀ acc, k ∈ l.foldl insertKeyOrder acc → k ∈ acc ∨ k ∈ l := by
  induction l with
  | nil => intro acc h; exact Or.inl h
  | cons x xs ih =>
    intro acc h
    rcases ih (insertKeyOrder acc x) h with h2 | h2
    · rw [insertKeyOrder] at h2
      by_cases hx : x ∈ acc
      · rw [if_pos hx] at h2
        exact Or.inl h2
      · rw [if_neg hx] at h2
        rcases List.mem_append.1 h2 with h3 | h3
        · exact Or.inl h3
        · simp only [List.mem_singleton] at h3
          exact Or.inr (by simp [h3])
    · exact Or.inr (by simp [h2])

theorem groupKeys_mem (files : List (String × Nat)) (k : List Char)
    (hk : k ∈ groupKeys files) : ∃ f ∈ mdFilesOf files, normOf f = k := by
  rcases foldl_insertKeyOrder_mem k ((mdFilesOf files).map normOf) [] hk with h | h
  · simp at h
  · obtain ⟨f, hf, he⟩ := List.mem_map.1 h
    exact ⟨f, hf, he⟩

theorem containsStr_iff (l : List String) (a : String) : l.contains a = true ↔ a ∈ l := by
  simp [List.contains, List.elem_iff]

/-- C8: under distinct file names, every group of markdown files sharing a
normalized key keeps exactly one member after cleanDuplicateFiles: the one
with the earliest creation time, ties broken by enumeration order; every
other member of the group is scheduled for deletion. -/
theorem claim_C8 (files : List (String × Nat)) (hnd : (files.map Prod.fst).Nodup) :
    ∀ g ∈ groupsOf files, ∃ m,
      g.filter (fun f => !((deletionSchedule files).contains f.1)) = [ m ] ∧
      m ∈ g ∧ (∀ f ∈ g, m.2 ≤ f.2) ∧
      (∃ pre post, g = pre ++ m :: post ∧ ∀ f ∈ pre, m.2 < f.2) ∧
      (∀ f ∈ g, f ≠ m → f.1 ∈ deletionSchedule files) := by
  intro g hg
  have files_nodup : files.Nodup := List.Nodup.of_map Prod.fst hnd
  simp only [groupsOf] at hg
  obtain ⟨k, hk, hgdef⟩ := List.mem_map.1 hg
  have hsubmd : (mdFilesOf files).Sublist files := List.filter_sublist files
  have hsubg : g.Sublist files := by
    rw [← hgdef]
    exact (List.filter_sublist (mdFilesOf files)).trans hsubmd
  have hgnd : g.Nodup := hsubg.nodup files_nodup
  have hmemg : ∀ f, f ∈ g ↔ (f ∈ mdFilesOf files ∧ normOf f = k) := by
    intro f
    rw [← hgdef, List.mem_filter]
    simp
  have hne : g ≠ [] := by
    obtain ⟨f0, hf0, hf0k⟩ := groupKeys_mem files k hk
    exact List.ne_nil_of_mem ((hmemg f0).2 ⟨hf0, hf0k⟩)
  obtain ⟨m, t, hsort, hmin, pre, post, hsplit, hpre⟩ := sortFilesByAge_first_min g hne
  have hperm : (m :: t).Perm g := by
    rw [← hsort]
    exact sortFilesByAge_perm g
  have hmt_nd : (m :: t).Nodup := hperm.symm.nodup hgnd
  have hm_not_t : m ∉ t := (List.nodup_cons.1 hmt_nd).1
  have hm_mem : m ∈ g := hperm.mem_iff.1 (by simp)
  have hsched : ∀ f ∈ g, (f.1 ∈ deletionSchedule files ↔ f ∈ t) := by
    intro f hf
    constructor
    · intro hs
      obtain ⟨g2, hg2, hcontrib⟩ := List.mem_flatMap.1 hs
      by_cases hlen : 1 < g2.length
      · rw [if_pos hlen] at hcontrib
        obtain ⟨f2, hf2, hf2name⟩ := List.mem_map.1 hcontrib
        have hf2sort : f2 ∈ sortFilesByAge g2 := List.mem_of_mem_drop hf2
        have hf2g2 : f2 ∈ g2 := (sortFilesByAge_perm g2).mem_iff.1 hf2sort
        simp only [groupsOf] at hg2
        obtain ⟨k2, hk2, hg2def⟩ := List.mem_map.1 hg2
        have hsubg2 : g2.Sublist files := by
          rw [← hg2def]
          exact (List.filter_sublist (mdFilesOf files)).trans hsubmd
        have hf2files : f2 ∈ files := hsubg2.subset hf2g2
        have hffiles : f ∈ files := hsubg.subset hf
        have hf2f : f2 = f := List.inj_on_of_nodup_map hnd hf2files hffiles hf2name
        subst hf2f
        have hk2eq : k2 = k := by
          have h1 : normOf f2 = k2 := by
            have := (List.mem_filter.1 (hg2def ▸ hf2g2)).2
            simpa using this
          have h2 : normOf f2 = k := ((hmemg f2).1 hf).2
          rw [← h1, h2]
        have hg2g : g2 = g := by
          rw [← hg2def, hk2eq, hgdef]
        rw [hg2g, hsort] at hf2
        exact hf2
      · rw [if_neg hlen] at hcontrib
        simp at hcontrib
    · intro hft
      have hlen : 1 < g.length := by
        have hlp := hperm.length_eq
        have htp : 0 < t.length := List.length_pos.2 (List.ne_nil_of_mem hft)
        simp only [List.length_cons] at hlp
        omega
      refine List.mem_flatMap.2 ⟨g, ?_, ?_⟩
      · simp only [groupsOf]
        exact List.mem_map.2 ⟨k, hk, hgdef⟩
      · rw [if_pos hlen, hsort]
        exact List.mem_map.2 ⟨f, hft, rfl⟩
  refine ⟨m, ?_, hm_mem, hmin, ⟨pre, post, hsplit, hpre⟩, ?_⟩
  · refine filter_eq_single_of_mem g m hgnd hm_mem _ ?_
    intro f hf
    constructor
    · intro hpf
      have hnotsched : ¬ f.1 ∈ deletionSchedule files := by
        intro hmem
        rw [Bool.not_eq_true'] at hpf
        rw [(containsStr_iff _ _).2 hmem] at hpf
        cases hpf
      have hnt : f ∉ t := fun hft => hnotsched ((hsched f hf).2 hft)
      have : f ∈ m :: t := hperm.mem_iff.2 hf
      rcases List.mem_cons.1 this with he | he
      · exact he
      · exact absurd he hnt
    · intro he
      subst he
      have hnotsched : ¬ f.1 ∈ deletionSchedule files := by
        intro hmem
        exact hm_not_t ((hsched f hf).1 hmem)
      rcases hc : (deletionSchedule files).contains f.1 with _ | _
      · rfl
      · exact absurd ((containsStr_iff _ _).1 hc) hnotsched
  · intro f hf hfm
    have : f ∈ m :: t := hperm.mem_iff.2 hf
    rcases List.mem_cons.1 this with he | he
    · exact absurd he hfm
    · exact (hsched f hf).2 he

/-- C8 witness: three names all normalizing to note, with the earliest
creation time in the middle of the enumeration; the earliest file is the
single survivor of the group. -/
theorem claim_C8_witness :
    (([ ("note.md", 5), ("Note.md", 1), ("N.O.T.E.md", 2) ] :
        List (String × Nat)).map Prod.fst).Nodup ∧
    ∃ m, ((groupsOf [ ("note.md", 5), ("Note.md", 1), ("N.O.T.E.md", 2) ]).headI).filter
        (fun f => !((deletionSchedule
          [ ("note.md", 5), ("Note.md", 1), ("N.O.T.E.md", 2) ]).contains f.1)) = [ m ] ∧
      m ∈ (groupsOf [ ("note.md", 5), ("Note.md", 1), ("N.O.T.E.md", 2) ]).headI ∧
      (∀ f ∈ (groupsOf [ ("note.md", 5), ("Note.md", 1), ("N.O.T.E.md", 2) ]).headI,
        m.2 ≤ f.2) ∧
      (∃ pre post, (groupsOf [ ("note.md", 5), ("Note.md", 1), ("N.O.T.E.md", 2) ]).headI
          = pre ++ m :: post ∧ ∀ f ∈ pre, m.2 < f.2) ∧
      (∀ f ∈ (groupsOf [ ("note.md", 5), ("Note.md", 1), ("N.O.T.E.md", 2) ]).headI,
        f ≠ m → f.1 ∈ deletionSchedule
          [ ("note.md", 5), ("Note.md", 1), ("N.O.T.E.md", 2) ]) := by
  refine ⟨by decide, ?_⟩
  exact claim_C8 [ ("note.md", 5), ("Note.md", 1), ("N.O.T.E.md", 2) ] (by decide)
    ((groupsOf [ ("note.md", 5), ("Note.md", 1), ("N.O.T.E.md", 2) ]).headI)
    (by decide)

/-- C8 counterexample: the concrete three files of the claim, note.md,
Note.md and NOTE (1).md with distinct creation times, do not reduce to one
file: NOTE (1).md normalizes to note1, not note, so it forms its own group
and survives together with the earliest of the other two. -/
theorem claim_C8_counterexample :
    survivorsAfterClean [ ("note.md", 0), ("Note.md", 1), ("NOTE (1).md", 2) ]
      = [ ("note.md", 0), ("NOTE (1).md", 2) ] ∧
    (survivorsAfterClean [ ("note.md", 0), ("Note.md", 1), ("NOTE (1).md", 2) ]).length = 2 ∧
    normalizeFileName ("NOTE (1).md" : String).data = ("note1" : String).data ∧
    normalizeFileName ("note.md" : String).data = ("note" : String).data := by
  refine ⟨by decide, by decide, by decide, by decide⟩
